import Mathlib

/-!
A shallow embedding of the entropy-coding core of the repository
(`src/compression/entropy_coding.py`), together with proofs of its key
functional properties.

Modelling conventions:
* Integer tensor values are unbounded `Int`s; the source's explicit
  `astype(np.int32)` casts are modelled by `wrap32`.  Other numpy
  fixed-width effects (which no verified configuration exercises) are not
  modelled.
* A Python `assert` failure (an abort) is modelled by an `Option` result of
  `none`.
* Tensors are a shape together with their row-major flat data.
* The stack coder module `src.compression.ans` (imported as `vrans`) is not
  part of this repository's sources; its operations are modelled from the
  specification's description of the stack coder core (a renormalizing
  64-bit register over a backing word buffer, with two-phase pop and
  exactly inverse serialize/deserialize).
-/

namespace EntropyCoding

/-- Module constant `OVERFLOW_WIDTH = 4` (entropy_coding.py line 8). -/
def OVERFLOW_WIDTH : Nat := 4

/-- Module constant `OVERFLOW_CODE = 1 << (1 << OVERFLOW_WIDTH)` (line 9). -/
def OVERFLOW_CODE : Nat := 2 ^ (2 ^ OVERFLOW_WIDTH)

/-- A tensor: its shape and its row-major flattened data. -/
structure Tensor where
  shape : List Nat
  data : List Int
deriving DecidableEq

/-- The effect of `astype(np.int32)` on one entry. -/
def wrap32 (x : Int) : Int := (x + 2 ^ 31) % 2 ^ 32 - 2 ^ 31

/-- Modelled from the spec: the stack coder keeps its state within a fixed
valid range by renormalization; `RANS_L` is the lower bound of that range
(a 64-bit register renormalizing by 32-bit words). -/
def RANS_L : Nat := 2 ^ 31

/-- Modelled from the spec: the live coder state, a register (`head`) plus
the backing buffer of emitted words (`tail`).  This stands in for the
message type of the missing `src.compression.ans` module. -/
abbrev Message := Nat × List Nat

/-- Modelled from the spec: `vrans.empty_message` for a scalar coding shape. -/
def empty_message : Message := (RANS_L, [])

/-- Modelled from the spec: `vrans.push(message, start, freq, precision)`
folds the interval `[start, start+freq)` out of total mass `2^precision`
into the register, first emitting one buffered word if the register would
leave its valid range. -/
def vrans_push (m : Message) (start freq precision : Nat) : Message :=
  if 2 ^ (63 - precision) * freq ≤ m.1 then
    (((m.1 / 2 ^ 32) / freq) * 2 ^ precision + (m.1 / 2 ^ 32) % freq + start,
      m.1 % 2 ^ 32 :: m.2)
  else
    ((m.1 / freq) * 2 ^ precision + m.1 % freq + start, m.2)

/-- Modelled from the spec: first phase of `vrans.pop` — peek the register's
current cumulative-frequency value in `[0, 2^precision)` without consuming
state. -/
def vrans_peek (m : Message) (precision : Nat) : Nat := m.1 % 2 ^ precision

/-- Modelled from the spec: second phase of `vrans.pop` — once the resolved
symbol's `(start, freq)` is known, finish the pop and renormalize by
pulling a buffered word if the register left its valid range. -/
def vrans_pop_complete (m : Message) (precision start freq : Nat) : Message :=
  if freq * (m.1 / 2 ^ precision) + m.1 % 2 ^ precision - start < RANS_L then
    match m.2 with
    | [] => (freq * (m.1 / 2 ^ precision) + m.1 % 2 ^ precision - start, [])
    | w :: ws =>
      ((freq * (m.1 / 2 ^ precision) + m.1 % 2 ^ precision - start) * 2 ^ 32 + w, ws)
  else (freq * (m.1 / 2 ^ precision) + m.1 % 2 ^ precision - start, m.2)

/-- Modelled from the spec: `vrans.flatten` serializes a message into the
word sequence; exact inverse of `vrans_unflatten_scalar`. -/
def vrans_flatten (m : Message) : List Nat := m.1 :: m.2

/-- Modelled from the spec: `vrans.unflatten_scalar` deserializes a word
sequence into a fresh message; exact inverse of `vrans_flatten`. -/
def vrans_unflatten_scalar (ws : List Nat) : Message := (ws.headD 0, ws.tail)

/-- Python-style list indexing (a negative index addresses from the end),
as numpy indexing behaves in `_indexed_cdf_to_enc_statfun`. -/
def pyGetD (l : List Nat) (i : Int) : Nat :=
  if 0 ≤ i then l.getD i.toNat 0 else l.getD (l.length - (-i).toNat) 0

/-- Source `_indexed_cdf_to_enc_statfun` (lines 44-52): `value ↦ (start, freq)` with
`start = cdf_i[value]` and `freq = cdf_i[value + 1] - cdf_i[value]`. -/
def enc_statfun (cdf_i : List Nat) (value : Int) : Nat × Nat :=
  let lower := pyGetD cdf_i value
  (lower, pyGetD cdf_i (value + 1) - lower)

/-- Model of `np.searchsorted(l, v, side='right')`: for a sorted list, the number of
entries `≤ v` (the rightmost insertion point). -/
def searchsorted_r (l : List Nat) (v : Nat) : Nat := l.countP (fun x => decide (x ≤ v))

/-- The last entry of the truncated row `cdf_i[:len]`
(`_indexed_cdf_to_dec_statfun` lines 71-72). -/
def dec_term (cdf_i : List Nat) (len : Nat) : Nat :=
  let t := cdf_i.take len
  t.getD (t.length - 1) 0

/-- The construction-time assertion of `_indexed_cdf_to_dec_statfun`
(line 73): the truncated row must end in `OVERFLOW_CODE` or
`1 << OVERFLOW_WIDTH`. -/
def dec_statfun_ok (cdf_i : List Nat) (len : Nat) : Bool :=
  decide (dec_term cdf_i len = OVERFLOW_CODE) || decide (dec_term cdf_i len = 2 ^ OVERFLOW_WIDTH)

/-- The body of the decode lookup (line 80):
`searchsorted(cdf_i[:len], cum_freq, side='right') - 1`. -/
def dec_statfun (cdf_i : List Nat) (len : Nat) (cum_freq : Nat) : Int :=
  (searchsorted_r (cdf_i.take len) cum_freq : Int) - 1

/-- The warning condition in `base_codec` (line 27): a non-fatal accuracy
warning is emitted when `precision >= 24`. -/
def base_codec_warns (precision : Nat) : Bool := decide (24 ≤ precision)

/-- Source `base_codec.push` specialized to the indexed statfuns (lines 31-33). -/
def codec_push (cdf_i : List Nat) (precision : Nat) (m : Message) (value : Int) : Message :=
  let sf := enc_statfun cdf_i value
  vrans_push m sf.1 sf.2 precision

/-- Source `base_codec.pop` specialized to the indexed statfuns (lines 35-40):
peek the cumulative frequency, resolve it to a symbol, re-derive the
symbol's interval, assert `start ≤ cf < start + freq`, then complete the
pop.  `none` models the assertion failing. -/
def codec_pop (cdf_i : List Nat) (len precision : Nat) (m : Message) : Option (Message × Int) :=
  let cf := vrans_peek m precision
  let sym := dec_statfun cdf_i len cf
  let sf := enc_statfun cdf_i sym
  if sf.1 ≤ cf ∧ cf < sf.1 + sf.2 then
    some (vrans_pop_complete m precision sf.1 sf.2, sym)
  else none

/-- The overflow sub-codec's uniform CDF `np.arange((1 << overflow_width) + 1)`
(lines 163-164), for the default width. -/
def overflow_cdf : List Nat := List.range (2 ^ OVERFLOW_WIDTH + 1)

/-- The scalar clamp/escape step of `ans_index_encoder` (lines 192-199):
returns the (possibly clamped) value together with the overflow code. -/
def clamp_overflow (value max_value : Int) : Int × Int :=
  if value < 0 then (max_value, -2 * value - 1)
  else if max_value ≤ value then (max_value, 2 * (value - max_value))
  else (value, 0)

/-- The elementwise effect of the vectorized clamp/escape step of
`vec_ans_index_encoder` (lines 265-273), which applies the two `np.where`
masks in sequence (the second mask is evaluated on the already-clamped
values). -/
def vec_clamp_overflow (value max_value : Int) : Int × Int :=
  let o : Int := 0
  let o := if value < 0 then -2 * value - 1 else o
  let v := if value < 0 then max_value else value
  let o2 := if max_value ≤ v then 2 * (v - max_value) else o
  let v2 := if max_value ≤ v then max_value else v
  (v2, o2)

/-- One iteration of the `ans_index_encoder` loop (lines 175-229); `none`
models an assertion failure.  The escape branch (`value == max_value`) is
`pass` in the source, so it pushes nothing. -/
def ans_enc_step (cdf : List (List Nat)) (cdf_length : List Nat) (cdf_offset : List Int)
    (precision : Nat) (m : Message) (sym idx : Int) : Option Message :=
  if 0 ≤ idx ∧ idx < (cdf.length : Int) then
    let r := idx.toNat
    let cdf_i := cdf.getD r []
    let cdf_length_i := cdf_length.getD r 0
    let max_value : Int := (cdf_length_i : Int) - 2
    if 0 ≤ max_value ∧ max_value < ((cdf.headD []).length : Int) - 1 then
      let vo := clamp_overflow (sym - cdf_offset.getD r 0) max_value
      if 0 ≤ vo.1 ∧ vo.1 < (cdf_length_i : Int) - 1 then
        if dec_statfun_ok cdf_i cdf_length_i = true then
          some (codec_push cdf_i precision m vo.1)
        else none
      else none
    else none
  else none

/-- The encoder loop over the (already reversed) flat position list. -/
def ans_enc_go (cdf : List (List Nat)) (cdf_length : List Nat) (cdf_offset : List Int)
    (precision : Nat) : List (Int × Int) → Message → Option Message
  | [], m => some m
  | p :: rest, m =>
    match ans_enc_step cdf cdf_length cdf_offset precision m p.1 p.2 with
    | some m' => ans_enc_go cdf cdf_length cdf_offset precision rest m'
    | none => none

/-- Source `ans_index_encoder` (lines 108-235): flatten symbols and indices (after
the `int32` casts), encode positions in reverse order starting from an
empty message, and return the serialized words together with
`symbols.shape[1:]` as the coding shape.  The overflow sub-codec is
constructed up front (lines 166-170), whose construction assertion is
modelled by the `dec_statfun_ok` guard. -/
def ans_index_encoder (symbols indices : Tensor) (cdf : List (List Nat))
    (cdf_length : List Nat) (cdf_offset : List Int) (precision : Nat) :
    Option (List Nat × List Nat) :=
  let syms := symbols.data.map wrap32
  let idxs := indices.data.map wrap32
  if dec_statfun_ok overflow_cdf (2 ^ OVERFLOW_WIDTH + 1) = true then
    match ans_enc_go cdf cdf_length cdf_offset precision (syms.zip idxs).reverse
        empty_message with
    | some m => some (vrans_flatten m, symbols.shape.drop 1)
    | none => none
  else none

/-- One iteration of the `ans_index_decoder` loop (lines 344-396); the
escape branch (`value == max_value`) is `pass` in the source, so the
decoded symbol is always `value + cdf_offset[cdf_index]`. -/
def ans_dec_step (cdf : List (List Nat)) (cdf_length : List Nat) (cdf_offset : List Int)
    (precision : Nat) (m : Message) (idx : Int) : Option (Message × Int) :=
  if 0 ≤ idx ∧ idx < (cdf.length : Int) then
    let r := idx.toNat
    let cdf_i := cdf.getD r []
    let cdf_length_i := cdf_length.getD r 0
    let max_value : Int := (cdf_length_i : Int) - 2
    if 0 ≤ max_value ∧ max_value < ((cdf.headD []).length : Int) - 1 then
      if dec_statfun_ok cdf_i cdf_length_i = true then
        match codec_pop cdf_i cdf_length_i precision m with
        | some (m', value) => some (m', value + cdf_offset.getD r 0)
        | none => none
      else none
    else none
  else none

/-- The decoder loop over the flat index list, in forward order. -/
def ans_dec_go (cdf : List (List Nat)) (cdf_length : List Nat) (cdf_offset : List Int)
    (precision : Nat) : List Int → Message → Option (Message × List Int)
  | [], m => some (m, [])
  | idx :: rest, m =>
    match ans_dec_step cdf cdf_length cdf_offset precision m idx with
    | some (m', s) =>
      match ans_dec_go cdf cdf_length cdf_offset precision rest m' with
      | some (m'', ss) => some (m'', s :: ss)
      | none => none
    | none => none

/-- Source `ans_index_decoder` (lines 318-398): deserialize, then decode positions
in forward order, returning the flat decoded sequence.  The `coding_shape`
argument is accepted but never used by the source.  The overflow sub-codec
is constructed up front (lines 338-342). -/
def ans_index_decoder (encoded : List Nat) (indices : Tensor) (cdf : List (List Nat))
    (cdf_length : List Nat) (cdf_offset : List Int) (precision : Nat)
    (coding_shape : List Nat) : Option (List Int) :=
  let m0 := vrans_unflatten_scalar encoded
  let idxs := indices.data.map wrap32
  if dec_statfun_ok overflow_cdf (2 ^ OVERFLOW_WIDTH + 1) = true then
    match ans_dec_go cdf cdf_length cdf_offset precision idxs m0 with
    | some (_, out) => some out
    | none => none
  else none

/-- Source `_vec_indexed_cdf_to_enc_statfun` (lines 54-67): per-lane
`take_along_axis` lookups of the lower and upper cumulative frequencies. -/
def vec_enc_statfun (rows : List (List Nat)) (values : List Int) : List Nat × List Nat :=
  let lower := List.zipWith (fun r v => pyGetD r v) rows values
  let upper := List.zipWith (fun r v => pyGetD r (v + 1)) rows values
  (lower, List.zipWith (fun u l => u - l) upper lower)

/-- Source `_vec_indexed_cdf_to_dec_statfun` (lines 85-106): per-lane ragged
rightmost search over each row's first `len` entries; `none` models the
shape-mismatch assertion (line 98).  Note there is no counterpart of the
scalar constructor's terminal-value assertion. -/
def vec_dec_statfun (rows : List (List Nat)) (lens : List Nat) (values : List Nat) :
    Option (List Int) :=
  if values.length = rows.length then
    some (List.zipWith (fun rl v => dec_statfun rl.1 rl.2 v) (rows.zip lens) values)
  else none

/-- Elementwise interval check `np.all(start <= cf) and np.all(cf < start + freq)`
of the vectorized `base_codec.pop`. -/
def interval_check (starts freqs cfs : List Nat) : Bool :=
  (List.zip starts (List.zip freqs cfs)).all
    (fun t => decide (t.1 ≤ t.2.2) && decide (t.2.2 < t.1 + t.2.1))

/-- Modelled from the spec: the vectorized coder state, one register per
coding lane over a shared word buffer (for the missing vectorized
operations of `src.compression.ans`). -/
abbrev VecMessage := List Nat × List Nat

/-- Modelled from the spec: `vrans.unflatten(encoded, coding_shape)` splits
the word sequence into the per-lane registers and the shared buffer. -/
def vec_unflatten (ws : List Nat) (lanes : Nat) : VecMessage := (ws.take lanes, ws.drop lanes)

/-- Modelled from the spec: the vectorized peek of `vrans.pop`. -/
def vec_peek (m : VecMessage) (precision : Nat) : List Nat := m.1.map (· % 2 ^ precision)

/-- Modelled from the spec: per-lane renormalization after a vectorized pop;
lanes whose register left the valid range pull one buffered word each, in
lane order. -/
def vec_renorm : List Nat → List Nat → List Nat × List Nat
  | [], tail => ([], tail)
  | h :: hs, tail =>
    if h < RANS_L then
      match tail with
      | [] =>
        let p := vec_renorm hs []
        (h :: p.1, p.2)
      | w :: ws =>
        let p := vec_renorm hs ws
        ((h * 2 ^ 32 + w) :: p.1, p.2)
    else
      let p := vec_renorm hs tail
      (h :: p.1, p.2)

/-- Modelled from the spec: the vectorized completion phase of `vrans.pop`. -/
def vec_pop_complete (m : VecMessage) (precision : Nat) (starts freqs : List Nat) :
    VecMessage :=
  let hs := List.zipWith (fun h sf => sf.2 * (h / 2 ^ precision) + h % 2 ^ precision - sf.1)
    m.1 (starts.zip freqs)
  vec_renorm hs m.2

/-- Source `base_codec.pop` with the vectorized statfuns (lines 35-40 with 54-106):
peek all lanes, resolve each to a symbol, re-derive the intervals, check
them all, then complete. -/
def vec_codec_pop (rows : List (List Nat)) (lens : List Nat) (precision : Nat)
    (m : VecMessage) : Option (VecMessage × List Int) :=
  let cfs := vec_peek m precision
  match vec_dec_statfun rows lens cfs with
  | some syms =>
    let sf := vec_enc_statfun rows syms
    if interval_check sf.1 sf.2 cfs = true then
      some (vec_pop_complete m precision sf.1 sf.2, syms)
    else none
  | none => none

/-- One step of the `vec_ans_index_decoder` loop (lines 433-444). -/
def vec_dec_step (cdf : List (List Nat)) (cdf_length : List Nat) (cdf_offset : List Int)
    (precision : Nat) (m : VecMessage) (idxs : List Int) : Option (VecMessage × List Int) :=
  let rows := idxs.map (fun ix => cdf.getD ix.toNat [])
  let lens := idxs.map (fun ix => cdf_length.getD ix.toNat 0)
  match vec_codec_pop rows lens precision m with
  | some (m', values) =>
    some (m', List.zipWith (fun v ix => v + cdf_offset.getD ix.toNat 0) values idxs)
  | none => none

/-- The vectorized decoder loop over the leading axis. -/
def vec_dec_go (cdf : List (List Nat)) (cdf_length : List Nat) (cdf_offset : List Int)
    (precision : Nat) : List (List Int) → VecMessage → Option (List (List Int))
  | [], _ => some []
  | ix :: rest, m =>
    match vec_dec_step cdf cdf_length cdf_offset precision m ix with
    | some (m', s) =>
      match vec_dec_go cdf cdf_length cdf_offset precision rest m' with
      | some ss => some (s :: ss)
      | none => none
    | none => none

/-- Source `vec_ans_index_decoder` (lines 401-450) on the batch path (`B ≠ 1`);
the `B = 1` branch calls `compression_utils.decompose`, which is not among
this repository's sources, and is not modelled.  The up-front vectorized
index and max-length assertions (lines 417-423) are modelled by the two
guards. -/
def vec_ans_index_decoder (encoded : List Nat) (indices : List (List Int))
    (cdf : List (List Nat)) (cdf_length : List Nat) (cdf_offset : List Int)
    (precision : Nat) (coding_shape : List Nat) : Option (List (List Int)) :=
  let idxs := indices.map (fun row => row.map wrap32)
  let m0 := vec_unflatten encoded coding_shape.prod
  if idxs.all (fun row => row.all (fun ix => decide (0 ≤ ix) && decide (ix < (cdf.length : Int)))) then
    if idxs.all (fun row => row.all (fun ix =>
        decide (0 ≤ (cdf_length.getD ix.toNat 0 : Int) - 2) &&
        decide ((cdf_length.getD ix.toNat 0 : Int) - 2 < ((cdf.headD []).length : Int) - 1))) then
      vec_dec_go cdf cdf_length cdf_offset precision idxs m0
    else none
  else none

/-- The per-row table invariants of the data model, for the row selected by
flat index `r`: a valid length, uniform table width, a zero first entry, a
total mass of `2^precision`, and strictly increasing cumulative
frequencies over the valid entries. -/
def RowSpec (cdf : List (List Nat)) (cdf_length : List Nat) (precision : Nat) (r : Nat) :
    Prop :=
  2 ≤ cdf_length.getD r 0 ∧ cdf_length.getD r 0 ≤ (cdf.getD r []).length ∧
  (cdf.getD r []).length = (cdf.headD []).length ∧
  (cdf.getD r []).getD 0 0 = 0 ∧
  (cdf.getD r []).getD (cdf_length.getD r 0 - 1) 0 = 2 ^ precision ∧
  ∀ i, i < cdf_length.getD r 0 - 1 →
    (cdf.getD r []).getD i 0 < (cdf.getD r []).getD (i + 1) 0

/-- A symbol/index pair is in range: the index selects a valid row, both
values survive the `int32` casts unchanged, and the shifted value lies in
the row's modeled interval `[0, cdf_length - 2)`. -/
def InRange (cdf : List (List Nat)) (cdf_length : List Nat) (cdf_offset : List Int)
    (precision : Nat) (s ix : Int) : Prop :=
  -2 ^ 31 ≤ s ∧ s < 2 ^ 31 ∧ 0 ≤ ix ∧ ix < 2 ^ 31 ∧ ix < (cdf.length : Int) ∧
  RowSpec cdf cdf_length precision ix.toNat ∧
  0 ≤ s - cdf_offset.getD ix.toNat 0 ∧
  s - cdf_offset.getD ix.toNat 0 < (cdf_length.getD ix.toNat 0 : Int) - 2

instance (cdf : List (List Nat)) (cdf_length : List Nat) (precision : Nat) (r : Nat) :
    Decidable (RowSpec cdf cdf_length precision r) := by
  unfold RowSpec
  infer_instance

instance (cdf : List (List Nat)) (cdf_length : List Nat) (cdf_offset : List Int)
    (precision : Nat) (s ix : Int) :
    Decidable (InRange cdf cdf_length cdf_offset precision s ix) := by
  unfold InRange
  infer_instance

/-- The stack coder's register invariant between operations. -/
def MsgInv (m : Message) : Prop := RANS_L ≤ m.1 ∧ m.1 < 2 ^ 63

/-- A uniform 16-bin unit-width row with total mass `2^4`:
`[0, 1, ..., 16]`. -/
def unifRow : List Nat := List.range 17

/-! ## Helper lemmas: list indexing and sorted search -/

theorem getD_take_eq (l : List Nat) (n k : Nat) (hk : k < n) :
    (l.take n).getD k 0 = l.getD k 0 := by
  simp [List.getD_eq_getElem?_getD, List.getElem?_take, hk]

theorem length_take_eq (l : List Nat) (n : Nat) (hn : n ≤ l.length) :
    (l.take n).length = n := by
  simp only [List.length_take]
  omega

/-- Characterization of `searchsorted_r` on a list whose entries are
monotone in their index: entries below the count are `≤ cf`, entries at or
above it are `> cf`. -/
theorem countP_sorted_char (cf : Nat) (l : List Nat)
    (hmono : ∀ i j, i ≤ j → j < l.length → l.getD i 0 ≤ l.getD j 0) :
    l.countP (fun x => decide (x ≤ cf)) ≤ l.length ∧
    (∀ k, k < l.countP (fun x => decide (x ≤ cf)) → l.getD k 0 ≤ cf) ∧
    (∀ k, l.countP (fun x => decide (x ≤ cf)) ≤ k → k < l.length → cf < l.getD k 0) := by
  induction l with
  | nil => simp
  | cons a t ih =>
    have hmt : ∀ i j, i ≤ j → j < t.length → t.getD i 0 ≤ t.getD j 0 := by
      intro i j hij hj
      have h := hmono (i + 1) (j + 1) (by omega) (by simp only [List.length_cons]; omega)
      simpa using h
    obtain ⟨ih1, ih2, ih3⟩ := ih hmt
    rw [List.countP_cons]
    by_cases ha : a ≤ cf
    · have hone : (if (fun x => decide (x ≤ cf)) a = true then 1 else 0) = 1 := by
        simp [ha]
      rw [hone]
      refine ⟨by simp only [List.length_cons]; omega, ?_, ?_⟩
      · intro k hk
        cases k with
        | zero => simpa using ha
        | succ k' =>
          rw [List.getD_cons_succ]
          exact ih2 k' (by omega)
      · intro k hk hkl
        cases k with
        | zero => omega
        | succ k' =>
          rw [List.getD_cons_succ]
          simp only [List.length_cons] at hkl
          exact ih3 k' (by omega) (by omega)
    · have hzero : (if (fun x => decide (x ≤ cf)) a = true then 1 else 0) = 0 := by
        simp [ha]
      have hct : t.countP (fun x => decide (x ≤ cf)) = 0 := by
        by_contra hc
        have h0 : 0 < t.countP (fun x => decide (x ≤ cf)) := Nat.pos_of_ne_zero hc
        have h0t : 0 < t.length := lt_of_lt_of_le h0 ih1
        have h1 := ih2 0 h0
        have h2 := hmono 0 1 (by omega) (by simp only [List.length_cons]; omega)
        simp only [List.getD_cons_zero, List.getD_cons_succ] at h2
        omega
      rw [hzero, hct]
      refine ⟨by simp, by intro k hk; omega, ?_⟩
      intro k _ hkl
      cases k with
      | zero => simpa using (by omega : cf < a)
      | succ k' =>
        rw [List.getD_cons_succ]
        simp only [List.length_cons] at hkl
        have h2 := hmono 0 (k' + 1) (by omega) (by simp only [List.length_cons]; omega)
        simp only [List.getD_cons_zero, List.getD_cons_succ] at h2
        omega

/-- A row strictly increasing over its first `len` entries is monotone
there. -/
theorem mono_of_strict (row : List Nat) (len : Nat)
    (hs : ∀ i, i < len - 1 → row.getD i 0 < row.getD (i + 1) 0) :
    ∀ i j, i ≤ j → j < len → row.getD i 0 ≤ row.getD j 0 := by
  intro i j hij
  induction j, hij using Nat.le_induction with
  | base => intro _; exact le_refl _
  | succ j hij ih =>
    intro hj
    exact le_trans (ih (by omega)) (le_of_lt (hs j (by omega)))

/-! ## Helper lemmas: the stack coder -/

theorem core_div_mod (h1 freq p start : Nat) (hfreq : 0 < freq)
    (hsf : start + freq ≤ 2 ^ p) :
    ((h1 / freq) * 2 ^ p + h1 % freq + start) % 2 ^ p = h1 % freq + start ∧
    ((h1 / freq) * 2 ^ p + h1 % freq + start) / 2 ^ p = h1 / freq := by
  have hr : h1 % freq + start < 2 ^ p := by
    have := Nat.mod_lt h1 hfreq
    omega
  have e1 : (h1 / freq) * 2 ^ p + h1 % freq + start
      = 2 ^ p * (h1 / freq) + (h1 % freq + start) := by ring
  constructor
  · rw [e1, Nat.mul_add_mod, Nat.mod_eq_of_lt hr]
  · rw [e1, Nat.mul_add_div (pow_pos (by norm_num) p), Nat.div_eq_of_lt hr, Nat.add_zero]

theorem newhead_inv (h1 freq p start : Nat) (hfreq : 0 < freq)
    (hsf : start + freq ≤ 2 ^ p) (hqlt : h1 / freq < 2 ^ (63 - p))
    (hqge : 2 ^ (31 - p) ≤ h1 / freq) (hp : p ≤ 31) :
    RANS_L ≤ (h1 / freq) * 2 ^ p + h1 % freq + start ∧
    (h1 / freq) * 2 ^ p + h1 % freq + start < 2 ^ 63 := by
  have hr : h1 % freq + start < 2 ^ p := by
    have := Nat.mod_lt h1 hfreq
    omega
  have e63 : 2 ^ (63 - p) * 2 ^ p = 2 ^ 63 := by
    rw [← pow_add]
    congr 1
    omega
  have e31 : 2 ^ (31 - p) * 2 ^ p = 2 ^ 31 := by
    rw [← pow_add]
    congr 1
    omega
  have hub : (h1 / freq) * 2 ^ p ≤ (2 ^ (63 - p) - 1) * 2 ^ p :=
    Nat.mul_le_mul_right _ (by omega)
  rw [Nat.sub_mul, one_mul, e63] at hub
  have hlb : 2 ^ (31 - p) * 2 ^ p ≤ (h1 / freq) * 2 ^ p := Nat.mul_le_mul_right _ hqge
  rw [e31] at hlb
  have hple : 2 ^ p ≤ 2 ^ 63 := Nat.pow_le_pow_right (by norm_num) (by omega)
  have hL : RANS_L = 2 ^ 31 := rfl
  constructor
  · omega
  · omega

/-- One push followed by its matching pop restores the message and the
preserved register invariant, and the peeked cumulative frequency lands in
the pushed interval. -/
theorem vrans_push_pop (head : Nat) (tail : List Nat) (start freq p : Nat)
    (hlo : RANS_L ≤ head) (hhi : head < 2 ^ 63) (hfreq : 0 < freq)
    (hsf : start + freq ≤ 2 ^ p) (hp : p ≤ 31) :
    MsgInv (vrans_push (head, tail) start freq p) ∧
    start ≤ vrans_peek (vrans_push (head, tail) start freq p) p ∧
    vrans_peek (vrans_push (head, tail) start freq p) p < start + freq ∧
    vrans_pop_complete (vrans_push (head, tail) start freq p) p start freq = (head, tail) := by
  have hfle : freq ≤ 2 ^ p := by omega
  have hL : RANS_L = 2 ^ 31 := rfl
  rw [vrans_push]
  by_cases hren : 2 ^ (63 - p) * freq ≤ (head, tail).1
  · rw [if_pos hren]
    simp only at hren
    obtain ⟨hmod, hdiv⟩ := core_div_mod (head / 2 ^ 32) freq p start hfreq hsf
    have h1lt : head / 2 ^ 32 < 2 ^ 31 := by
      rw [Nat.div_lt_iff_lt_mul (by norm_num : 0 < 2 ^ 32)]
      calc head < 2 ^ 63 := hhi
        _ = 2 ^ 31 * 2 ^ 32 := by norm_num
    have hqlt : (head / 2 ^ 32) / freq < 2 ^ (63 - p) := by
      have h2 : (head / 2 ^ 32) / freq ≤ head / 2 ^ 32 := Nat.div_le_self _ _
      have h3 : (2 : Nat) ^ 31 ≤ 2 ^ (63 - p) := Nat.pow_le_pow_right (by norm_num) (by omega)
      omega
    have hqge : 2 ^ (31 - p) ≤ (head / 2 ^ 32) / freq := by
      have e2 : (2 : Nat) ^ (63 - p) = 2 ^ 32 * 2 ^ (31 - p) := by
        rw [← pow_add]
        congr 1
        omega
      have h4 : (2 ^ (31 - p) * freq) * 2 ^ 32 ≤ head := by
        calc (2 ^ (31 - p) * freq) * 2 ^ 32 = 2 ^ 32 * 2 ^ (31 - p) * freq := by ring
          _ = 2 ^ (63 - p) * freq := by rw [← e2]
          _ ≤ head := hren
      have h5 : 2 ^ (31 - p) * freq ≤ head / 2 ^ 32 :=
        (Nat.le_div_iff_mul_le (by norm_num : 0 < 2 ^ 32)).mpr h4
      exact (Nat.le_div_iff_mul_le hfreq).mpr h5
    obtain ⟨hinv1, hinv2⟩ := newhead_inv (head / 2 ^ 32) freq p start hfreq hsf hqlt hqge hp
    have hmlt : (head / 2 ^ 32) % freq < freq := Nat.mod_lt _ hfreq
    refine ⟨⟨hinv1, hinv2⟩, ?_, ?_, ?_⟩
    · show start ≤ _ % 2 ^ p
      rw [hmod]
      omega
    · show _ % 2 ^ p < start + freq
      rw [hmod]
      omega
    · rw [vrans_pop_complete]
      simp only
      rw [hdiv, hmod]
      have hback : freq * ((head / 2 ^ 32) / freq) + ((head / 2 ^ 32) % freq + start) - start
          = head / 2 ^ 32 := by
        have := Nat.div_add_mod (head / 2 ^ 32) freq
        omega
      rw [hback, if_pos (by omega : head / 2 ^ 32 < RANS_L)]
      have hsplit : (head / 2 ^ 32) * 2 ^ 32 + head % 2 ^ 32 = head := by
        rw [mul_comm]
        exact Nat.div_add_mod head (2 ^ 32)
      rw [hsplit]
  · rw [if_neg hren]
    simp only [not_le] at hren
    obtain ⟨hmod, hdiv⟩ := core_div_mod head freq p start hfreq hsf
    have hqlt : head / freq < 2 ^ (63 - p) := by
      rw [Nat.div_lt_iff_lt_mul hfreq]
      calc head < 2 ^ (63 - p) * freq := hren
        _ = 2 ^ (63 - p) * freq := rfl
    have hqge : 2 ^ (31 - p) ≤ head / freq := by
      apply (Nat.le_div_iff_mul_le hfreq).mpr
      have e31 : 2 ^ (31 - p) * 2 ^ p = 2 ^ 31 := by
        rw [← pow_add]
        congr 1
        omega
      have h7 : 2 ^ (31 - p) * freq ≤ 2 ^ (31 - p) * 2 ^ p := Nat.mul_le_mul_left _ hfle
      rw [e31] at h7
      omega
    obtain ⟨hinv1, hinv2⟩ := newhead_inv head freq p start hfreq hsf hqlt hqge hp
    have hmlt : head % freq < freq := Nat.mod_lt _ hfreq
    refine ⟨⟨hinv1, hinv2⟩, ?_, ?_, ?_⟩
    · show start ≤ _ % 2 ^ p
      rw [hmod]
      omega
    · show _ % 2 ^ p < start + freq
      rw [hmod]
      omega
    · rw [vrans_pop_complete]
      simp only
      rw [hdiv, hmod]
      have hback : freq * (head / freq) + (head % freq + start) - start = head := by
        have := Nat.div_add_mod head freq
        omega
      rw [hback, if_neg (by omega : ¬head < RANS_L)]

theorem MsgInv_empty : MsgInv empty_message := by
  constructor
  · exact le_refl _
  · norm_num [empty_message, RANS_L]

/-- Pushing an in-range value through a valid row's codec and popping it
back through the same row recovers both the value and the message. -/
theorem row_push_pop (row : List Nat) (len p : Nat) (mh : Nat) (mt : List Nat)
    (hlo : RANS_L ≤ mh) (hhi : mh < 2 ^ 63) (hp31 : p ≤ 31)
    (hr2 : len ≤ row.length) (hr5 : row.getD (len - 1) 0 = 2 ^ p)
    (hr6 : ∀ i, i < len - 1 → row.getD i 0 < row.getD (i + 1) 0)
    (v : Nat) (hv : v + 2 < len) :
    MsgInv (codec_push row p (mh, mt) (v : Int)) ∧
    codec_pop row len p (codec_push row p (mh, mt) (v : Int)) = some ((mh, mt), (v : Int)) := by
  have henc : enc_statfun row (v : Int) = (row.getD v 0, row.getD (v + 1) 0 - row.getD v 0) := by
    simp only [enc_statfun, pyGetD, if_pos (Int.natCast_nonneg v),
      if_pos (by positivity : (0 : Int) ≤ (v : Int) + 1)]
    have h1 : ((v : Int)).toNat = v := Int.toNat_natCast v
    have h2 : ((v : Int) + 1).toNat = v + 1 := by omega
    rw [h1, h2]
  have hmono := mono_of_strict row len hr6
  have hstrict_v : row.getD v 0 < row.getD (v + 1) 0 := hr6 v (by omega)
  have hle : row.getD (v + 1) 0 ≤ 2 ^ p := by
    have h := hmono (v + 1) (len - 1) (by omega) (by omega)
    rw [hr5] at h
    exact h
  have hfreq : 0 < row.getD (v + 1) 0 - row.getD v 0 := by omega
  have hsf : row.getD v 0 + (row.getD (v + 1) 0 - row.getD v 0) ≤ 2 ^ p := by omega
  obtain ⟨hinv', hcf1, hcf2, hpop⟩ :=
    vrans_push_pop mh mt (row.getD v 0) (row.getD (v + 1) 0 - row.getD v 0) p
      hlo hhi hfreq hsf hp31
  have hpush : codec_push row p (mh, mt) (v : Int)
      = vrans_push (mh, mt) (row.getD v 0) (row.getD (v + 1) 0 - row.getD v 0) p := by
    simp only [codec_push, henc]
  have hcfu : vrans_peek (vrans_push (mh, mt) (row.getD v 0)
      (row.getD (v + 1) 0 - row.getD v 0) p) p < row.getD (v + 1) 0 := by omega
  have htk_len : (row.take len).length = len := length_take_eq row len hr2
  have htk_mono : ∀ i j, i ≤ j → j < (row.take len).length →
      (row.take len).getD i 0 ≤ (row.take len).getD j 0 := by
    intro i j hij hj
    rw [htk_len] at hj
    rw [getD_take_eq row len i (by omega), getD_take_eq row len j hj]
    exact hmono i j hij hj
  obtain ⟨hc1, hc2, hc3⟩ := countP_sorted_char
    (vrans_peek (vrans_push (mh, mt) (row.getD v 0)
      (row.getD (v + 1) 0 - row.getD v 0) p) p) (row.take len) htk_mono
  have hvc : v < (row.take len).countP (fun x => decide (x ≤ vrans_peek (vrans_push (mh, mt)
      (row.getD v 0) (row.getD (v + 1) 0 - row.getD v 0) p) p)) := by
    by_contra h
    push_neg at h
    have h3 := hc3 v h (by omega)
    rw [getD_take_eq row len v (by omega)] at h3
    omega
  have hcv : (row.take len).countP (fun x => decide (x ≤ vrans_peek (vrans_push (mh, mt)
      (row.getD v 0) (row.getD (v + 1) 0 - row.getD v 0) p) p)) ≤ v + 1 := by
    by_contra h
    push_neg at h
    have h2 := hc2 (v + 1) h
    rw [getD_take_eq row len (v + 1) (by omega)] at h2
    omega
  have hsym : dec_statfun row len (vrans_peek (vrans_push (mh, mt) (row.getD v 0)
      (row.getD (v + 1) 0 - row.getD v 0) p) p) = (v : Int) := by
    rw [dec_statfun, searchsorted_r]
    have hceq : (row.take len).countP (fun x => decide (x ≤ vrans_peek (vrans_push (mh, mt)
        (row.getD v 0) (row.getD (v + 1) 0 - row.getD v 0) p) p)) = v + 1 := by omega
    rw [hceq]
    push_cast
    ring
  constructor
  · rw [hpush]
    exact hinv'
  · rw [hpush, codec_pop, hsym, henc]
    rw [if_pos ⟨hcf1, hcf2⟩, hpop]

/-- The decoder constructor's assertion passes on a valid row when the
precision is one of the two accepted total-mass exponents. -/
theorem dec_statfun_ok_of_row (row : List Nat) (len p : Nat)
    (hp : p = 16 ∨ p = 4) (hr1 : 2 ≤ len) (hr2 : len ≤ row.length)
    (hr5 : row.getD (len - 1) 0 = 2 ^ p) :
    dec_statfun_ok row len = true := by
  have hdt : dec_term row len = 2 ^ p := by
    simp only [dec_term]
    rw [length_take_eq row len hr2, getD_take_eq row len (len - 1) (by omega), hr5]
  rw [dec_statfun_ok, hdt]
  rcases hp with rfl | rfl
  · simp [OVERFLOW_CODE, OVERFLOW_WIDTH]
  · simp [OVERFLOW_CODE, OVERFLOW_WIDTH]

/-- One encoder step on an in-range position succeeds, preserves the
register invariant, and its matching decoder step recovers the original
message and symbol. -/
theorem step_roundtrip (C : List (List Nat)) (L : List Nat) (O : List Int) (p : Nat)
    (hp : p = 16 ∨ p = 4) (s ix : Int) (m : Message) (hm : MsgInv m)
    (hin : InRange C L O p s ix) :
    ∃ m', ans_enc_step C L O p m s ix = some m' ∧ MsgInv m' ∧
      ans_dec_step C L O p m' ix = some (m, s) := by
  obtain ⟨mh, mt⟩ := m
  obtain ⟨hlo, hhi⟩ := hm
  obtain ⟨hs1, hs2, hi1, hi2, hi3, hrow, hv1, hv2⟩ := hin
  simp only [RowSpec] at hrow
  obtain ⟨hr1, hr2, hr3, hr4, hr5, hr6⟩ := hrow
  have hp31 : p ≤ 31 := by rcases hp with rfl | rfl <;> norm_num
  have hvnat : ((s - O.getD ix.toNat 0).toNat : Int) = s - O.getD ix.toNat 0 := by omega
  have hvlt : (s - O.getD ix.toNat 0).toNat + 2 < L.getD ix.toNat 0 := by omega
  have hterm : dec_statfun_ok (C.getD ix.toNat []) (L.getD ix.toNat 0) = true :=
    dec_statfun_ok_of_row _ _ p hp hr1 hr2 hr5
  have hg1 : 0 ≤ ix ∧ ix < (C.length : Int) := ⟨hi1, hi3⟩
  have hg2 : 0 ≤ (L.getD ix.toNat 0 : Int) - 2 ∧
      (L.getD ix.toNat 0 : Int) - 2 < ((C.headD []).length : Int) - 1 := by
    constructor
    · omega
    · rw [← hr3]
      omega
  have hclamp : clamp_overflow (s - O.getD ix.toNat 0) ((L.getD ix.toNat 0 : Int) - 2)
      = (s - O.getD ix.toNat 0, 0) := by
    rw [clamp_overflow, if_neg (by omega), if_neg (by omega)]
  obtain ⟨hinv', hpop⟩ := row_push_pop (C.getD ix.toNat []) (L.getD ix.toNat 0) p mh mt
    hlo hhi hp31 hr2 hr5 hr6 (s - O.getD ix.toNat 0).toNat hvlt
  rw [hvnat] at hinv' hpop
  refine ⟨codec_push (C.getD ix.toNat []) p (mh, mt) (s - O.getD ix.toNat 0), ?_, hinv', ?_⟩
  · rw [ans_enc_step, if_pos hg1, if_pos hg2]
    rw [hclamp]
    rw [if_pos (by constructor <;> omega : (0 : Int) ≤ (s - O.getD ix.toNat 0, (0 : Int)).1 ∧
      (s - O.getD ix.toNat 0, (0 : Int)).1 < (L.getD ix.toNat 0 : Int) - 1)]
    rw [if_pos hterm]
  · rw [ans_dec_step, if_pos hg1, if_pos hg2, if_pos hterm, hpop]
    show some ((mh, mt), s - O.getD ix.toNat 0 + O.getD ix.toNat 0) = some ((mh, mt), s)
    have hoff : s - O.getD ix.toNat 0 + O.getD ix.toNat 0 = s := by omega
    rw [hoff]

theorem ans_enc_go_append (C : List (List Nat)) (L : List Nat) (O : List Int) (p : Nat)
    (A B : List (Int × Int)) (m : Message) :
    ans_enc_go C L O p (A ++ B) m =
      match ans_enc_go C L O p A m with
      | some m' => ans_enc_go C L O p B m'
      | none => none := by
  induction A generalizing m with
  | nil => simp [ans_enc_go]
  | cons a t ih =>
    rw [List.cons_append]
    simp only [ans_enc_go]
    cases henc : ans_enc_step C L O p m a.1 a.2 with
    | some m' => exact ih m'
    | none => rfl

/-- The whole encode pass over a reversed position list succeeds on
in-range data, and the forward decode pass recovers the symbols in their
original order while restoring the initial message. -/
theorem roundtrip_go (C : List (List Nat)) (L : List Nat) (O : List Int) (p : Nat)
    (hp : p = 16 ∨ p = 4) (ps : List (Int × Int)) :
    ∀ m : Message, MsgInv m →
    (∀ pr ∈ ps, InRange C L O p pr.1 pr.2) →
    ∃ m', ans_enc_go C L O p ps.reverse m = some m' ∧ MsgInv m' ∧
      ans_dec_go C L O p (ps.map Prod.snd) m' = some (m, ps.map Prod.fst) := by
  induction ps with
  | nil =>
    intro m hm _
    exact ⟨m, by simp [ans_enc_go], hm, by simp [ans_dec_go]⟩
  | cons pr rest ih =>
    intro m hm hall
    obtain ⟨m1, henc1, hinv1, hdec1⟩ := ih m hm (fun q hq => hall q (List.mem_cons_of_mem _ hq))
    obtain ⟨m2, hstep, hinv2, hdstep⟩ :=
      step_roundtrip C L O p hp pr.1 pr.2 m1 hinv1 (hall pr (List.mem_cons_self _ _))
    refine ⟨m2, ?_, hinv2, ?_⟩
    · rw [List.reverse_cons, ans_enc_go_append, henc1]
      simp [ans_enc_go, hstep]
    · simp only [List.map_cons, ans_dec_go, hdstep, hdec1]

theorem mem_left_exists_zip {α β : Type} (l1 : List α) (l2 : List β)
    (hlen : l1.length = l2.length) (x : α) (hx : x ∈ l1) : ∃ y, (x, y) ∈ l1.zip l2 := by
  induction l1 generalizing l2 with
  | nil => cases hx
  | cons a t ih =>
    cases l2 with
    | nil => simp at hlen
    | cons b u =>
      cases hx with
      | head => exact ⟨b, List.mem_cons_self _ _⟩
      | tail _ hx' =>
        obtain ⟨y, hy⟩ := ih u (by simpa using hlen) hx'
        exact ⟨y, List.mem_cons_of_mem _ hy⟩

theorem mem_right_exists_zip {α β : Type} (l1 : List α) (l2 : List β)
    (hlen : l1.length = l2.length) (y : β) (hy : y ∈ l2) : ∃ x, (x, y) ∈ l1.zip l2 := by
  induction l1 generalizing l2 with
  | nil =>
    cases l2 with
    | nil => cases hy
    | cons b u => simp at hlen
  | cons a t ih =>
    cases l2 with
    | nil => cases hy
    | cons b u =>
      cases hy with
      | head => exact ⟨a, List.mem_cons_self _ _⟩
      | tail _ hy' =>
        obtain ⟨x, hx⟩ := ih u (by simpa using hlen) hy'
        exact ⟨x, List.mem_cons_of_mem _ hx⟩

theorem overflow_ok : dec_statfun_ok overflow_cdf (2 ^ OVERFLOW_WIDTH + 1) = true := by decide

/-- C1: for every symbol tensor and index tensor of the same shape whose
shifted values all lie in their rows' modeled ranges `[0, cdf_length - 2)`
(rows obeying the documented table invariants, with a total mass the
decode-side assertion accepts), decoding the encoder's bitstream with
identical `cdf`, `cdf_length`, `cdf_offset` and `precision` arguments
returns the symbols exactly, at every position. -/
theorem ans_roundtrip (symbols indices : Tensor) (cdf : List (List Nat))
    (cdf_length : List Nat) (cdf_offset : List Int) (precision : Nat)
    (hp : precision = 16 ∨ precision = 4)
    (hsh : symbols.shape = indices.shape)
    (hlen : symbols.data.length = indices.data.length)
    (hall : ∀ pr ∈ symbols.data.zip indices.data,
      InRange cdf cdf_length cdf_offset precision pr.1 pr.2) :
    ∃ enc cs, ans_index_encoder symbols indices cdf cdf_length cdf_offset precision
        = some (enc, cs) ∧
      ans_index_decoder enc indices cdf cdf_length cdf_offset precision cs
        = some symbols.data := by
  have hws : symbols.data.map wrap32 = symbols.data := by
    have h : ∀ a ∈ symbols.data, wrap32 a = id a := by
      intro a ha
      obtain ⟨b, hab⟩ := mem_left_exists_zip _ _ hlen a ha
      obtain ⟨hb1, hb2, _⟩ := hall _ hab
      simp only [wrap32, id]
      omega
    rw [List.map_congr_left h, List.map_id]
  have hwi : indices.data.map wrap32 = indices.data := by
    have h : ∀ a ∈ indices.data, wrap32 a = id a := by
      intro a ha
      obtain ⟨b, hab⟩ := mem_right_exists_zip _ _ hlen a ha
      obtain ⟨_, _, hb3, hb4, _⟩ := hall _ hab
      simp only [wrap32, id]
      omega
    rw [List.map_congr_left h, List.map_id]
  obtain ⟨m', henc, _, hdec⟩ := roundtrip_go cdf cdf_length cdf_offset precision hp
    (symbols.data.zip indices.data) empty_message MsgInv_empty hall
  have hmapf : (symbols.data.zip indices.data).map Prod.fst = symbols.data :=
    List.map_fst_zip _ _ (by omega)
  have hmaps : (symbols.data.zip indices.data).map Prod.snd = indices.data :=
    List.map_snd_zip _ _ (by omega)
  rw [hmapf, hmaps] at hdec
  refine ⟨vrans_flatten m', symbols.shape.drop 1, ?_, ?_⟩
  · simp only [ans_index_encoder]
    rw [hws, hwi, if_pos overflow_ok, henc]
  · simp only [ans_index_decoder]
    rw [hwi, if_pos overflow_ok]
    have hflat : vrans_unflatten_scalar (vrans_flatten m') = m' := by
      simp [vrans_flatten, vrans_unflatten_scalar]
    rw [hflat, hdec]

/-- Witness for C1 at a concrete instance: three symbols against a uniform
16-bin row at precision 4. -/
theorem ans_roundtrip_witness :
    ∃ enc cs, ans_index_encoder ⟨[3], [7, 3, 12]⟩ ⟨[3], [0, 0, 0]⟩ [unifRow] [17] [0] 4
        = some (enc, cs) ∧
      ans_index_decoder enc ⟨[3], [0, 0, 0]⟩ [unifRow] [17] [0] 4 cs
        = some [7, 3, 12] :=
  ans_roundtrip ⟨[3], [7, 3, 12]⟩ ⟨[3], [0, 0, 0]⟩ [unifRow] [17] [0] 4
    (Or.inr rfl) rfl rfl (by decide)

/-- C2: the escape sub-codec is never exercised: the scalar encoder's
overflow branch is inert, so encoding the out-of-range symbol `-1`
(shifted value `-1`, clamped to the escape bin `15` with overflow code 1)
produces exactly the bitstream of encoding `15`, and decode returns the
clamped `15` instead of recovering `-1`. -/
theorem overflow_payload_dropped :
    ans_index_encoder ⟨[1], [-1]⟩ ⟨[1], [0]⟩ [unifRow] [17] [0] 4
      = ans_index_encoder ⟨[1], [15]⟩ ⟨[1], [0]⟩ [unifRow] [17] [0] 4 ∧
    (ans_index_encoder ⟨[1], [-1]⟩ ⟨[1], [0]⟩ [unifRow] [17] [0] 4).bind
      (fun ec => ans_index_decoder ec.1 ⟨[1], [0]⟩ [unifRow] [17] [0] 4 ec.2)
      = some [15] ∧
    ([15] : List Int) ≠ [-1] :=
  ⟨by decide, by decide, by decide⟩

/-- C3 counterexample: at the claim's stated input — symbols `[5, 2, 9]`
against a single uniform 3-bin row at precision 8 — the encoder aborts,
because the row's terminal value 256 fails the decode-lookup constructor's
assertion (which accepts only `2^16` or `2^4`). -/
theorem decode_order_counterexample :
    ans_index_encoder ⟨[3], [5, 2, 9]⟩ ⟨[3], [0, 0, 0]⟩ [[0, 85, 170, 256]] [4] [0] 8
      = none := by decide

/-- C3 amended: with a row the table assertion accepts (uniform 16-bin row,
precision 4), the reverse-order encode and forward-order decode recover
`[5, 2, 9]` in the original order, not reversed. -/
theorem decode_order_amended :
    (ans_index_encoder ⟨[3], [5, 2, 9]⟩ ⟨[3], [0, 0, 0]⟩ [unifRow] [17] [0] 4).bind
      (fun ec => ans_index_decoder ec.1 ⟨[3], [0, 0, 0]⟩ [unifRow] [17] [0] 4 ec.2)
      = some [5, 2, 9] ∧
    ([5, 2, 9] : List Int) ≠ [9, 2, 5] :=
  ⟨by decide, by decide⟩

/-- C4: the scalar clamp computes `overflow = -2v - 1` for `v < 0` and
`overflow = 2(v - max_value)` for `v ≥ max_value`, clamping exactly `-1`,
`10`, `11` for `max_value = 10` while `0` and `9` pass unchanged; the
vectorized clamp agrees on the clamped values but yields overflow `0`
instead of `1` at `v = -1`, because its second mask is evaluated on the
already-clamped values. -/
theorem clamp_overflow_eval :
    clamp_overflow (-1) 10 = (10, 1) ∧ vec_clamp_overflow (-1) 10 = (10, 0) ∧
    clamp_overflow 0 10 = (0, 0) ∧ clamp_overflow 9 10 = (9, 0) ∧
    clamp_overflow 10 10 = (10, 0) ∧ clamp_overflow 11 10 = (10, 2) ∧
    vec_clamp_overflow 0 10 = (0, 0) ∧ vec_clamp_overflow 9 10 = (9, 0) ∧
    vec_clamp_overflow 10 10 = (10, 0) ∧ vec_clamp_overflow 11 10 = (10, 2) := by
  decide

/-- C5: over a sorted row's first `len` entries, the scalar decode lookup
returns the rightmost index whose entry is `≤ cum_freq` (with the next
entry, when it exists among the valid ones, strictly greater), and the
vectorized lookup applies the same per-element search, truncated to each
row's declared length. -/
theorem symbol_lookup_rightmost :
    (∀ (row : List Nat) (len cf : Nat),
      1 ≤ len → len ≤ row.length →
      (∀ i j, i ≤ j → j < len → row.getD i 0 ≤ row.getD j 0) →
      row.getD 0 0 ≤ cf →
      0 ≤ dec_statfun row len cf ∧ (dec_statfun row len cf).toNat < len ∧
      row.getD (dec_statfun row len cf).toNat 0 ≤ cf ∧
      (∀ j, j < len → row.getD j 0 ≤ cf → j ≤ (dec_statfun row len cf).toNat) ∧
      ((dec_statfun row len cf).toNat + 1 < len →
        cf < row.getD ((dec_statfun row len cf).toNat + 1) 0)) ∧
    (∀ (rows : List (List Nat)) (lens vals : List Nat) (out : List Int),
      vec_dec_statfun rows lens vals = some out →
      ∀ k, k < out.length →
        out.getD k 0 = dec_statfun (rows.getD k []) (lens.getD k 0) (vals.getD k 0)) := by
  constructor
  · intro row len cf h1 h2 hmono h0
    have htk_len : (row.take len).length = len := length_take_eq row len h2
    have htk_mono : ∀ i j, i ≤ j → j < (row.take len).length →
        (row.take len).getD i 0 ≤ (row.take len).getD j 0 := by
      intro i j hij hj
      rw [htk_len] at hj
      rw [getD_take_eq row len i (by omega), getD_take_eq row len j hj]
      exact hmono i j hij hj
    obtain ⟨hc1, hc2, hc3⟩ := countP_sorted_char cf (row.take len) htk_mono
    rw [htk_len] at hc1
    have hcpos : 0 < (row.take len).countP (fun x => decide (x ≤ cf)) := by
      by_contra hc
      push_neg at hc
      have h3 := hc3 0 (by omega) (by omega)
      rw [getD_take_eq row len 0 (by omega)] at h3
      omega
    have hds : dec_statfun row len cf
        = ((row.take len).countP (fun x => decide (x ≤ cf)) : Int) - 1 := rfl
    have htn : (dec_statfun row len cf).toNat
        = (row.take len).countP (fun x => decide (x ≤ cf)) - 1 := by
      rw [hds]
      omega
    refine ⟨by rw [hds]; omega, by rw [htn]; omega, ?_, ?_, ?_⟩
    · rw [htn]
      have h4 := hc2 ((row.take len).countP (fun x => decide (x ≤ cf)) - 1) (by omega)
      rw [getD_take_eq row len _ (by omega)] at h4
      exact h4
    · intro j hj hjcf
      rw [htn]
      by_contra hcon
      push_neg at hcon
      have h5 := hc3 j (by omega) (by omega)
      rw [getD_take_eq row len j (by omega)] at h5
      omega
    · intro hlt
      rw [htn] at hlt ⊢
      have h6 := hc3 ((row.take len).countP (fun x => decide (x ≤ cf)))
        (le_refl _) (by omega)
      rw [getD_take_eq row len _ (by omega)] at h6
      have h7 : (row.take len).countP (fun x => decide (x ≤ cf)) - 1 + 1
          = (row.take len).countP (fun x => decide (x ≤ cf)) := by omega
      rw [h7]
      exact h6
  · intro rows lens vals out h k hk
    by_cases hl : vals.length = rows.length
    · rw [vec_dec_statfun, if_pos hl] at h
      injection h with h'
      subst h'
      have hlen := hk
      rw [List.length_zipWith, List.length_zip] at hlen
      have hkr : k < rows.length := by omega
      have hkl : k < lens.length := by omega
      have hkv : k < vals.length := by omega
      have hk2 : k < (List.zipWith (fun rl v => dec_statfun rl.1 rl.2 v)
          (rows.zip lens) vals).length := hk
      rw [List.getD_eq_getElem?_getD, List.getElem?_eq_getElem hk2]
      simp only [Option.getD_some]
      rw [List.getElem_zipWith]
      have hz : k < (rows.zip lens).length := by
        rw [List.length_zip]
        omega
      rw [List.getElem_zip]
      simp only
      rw [List.getD_eq_getElem?_getD, List.getElem?_eq_getElem hkr,
        List.getD_eq_getElem?_getD (l := lens), List.getElem?_eq_getElem hkl,
        List.getD_eq_getElem?_getD (l := vals), List.getElem?_eq_getElem hkv]
      simp only [Option.getD_some]
    · rw [vec_dec_statfun, if_neg hl] at h
      exact Option.noConfusion h

/-- Witness for C5: the lookup on the uniform 16-bin row at `cum_freq = 5`,
and the vectorized lookup on a one-lane batch. -/
theorem symbol_lookup_rightmost_witness :
    unifRow.getD (dec_statfun unifRow 17 5).toNat 0 ≤ 5 ∧
    ([dec_statfun unifRow 17 3] : List Int).getD 0 0
      = dec_statfun ([unifRow].getD 0 []) ([17].getD 0 0) ([3].getD 0 0) := by
  constructor
  · exact (symbol_lookup_rightmost.1 unifRow 17 5 (by norm_num) (by decide)
      (mono_of_strict unifRow 17 (by decide)) (by decide)).2.2.1
  · exact symbol_lookup_rightmost.2 [unifRow] [17] [3] [dec_statfun unifRow 17 3]
      (by decide) 0 (by decide)

/-- C6 amended: every pop through the generic symbol codec that returns a
symbol satisfied the re-derived interval check `start ≤ cum_freq <
start + freq` (a failing check aborts instead); a corrupted row, however,
can pass this check and silently yield a wrong symbol. -/
theorem codec_pop_checks_interval (cdf_i : List Nat) (len precision : Nat)
    (m m' : Message) (s : Int)
    (h : codec_pop cdf_i len precision m = some (m', s)) :
    (enc_statfun cdf_i s).1 ≤ vrans_peek m precision ∧
    vrans_peek m precision < (enc_statfun cdf_i s).1 + (enc_statfun cdf_i s).2 := by
  simp only [codec_pop] at h
  split at h
  case isTrue hc =>
    injection h with h'
    rw [Prod.mk.injEq] at h'
    obtain ⟨h1, h2⟩ := h'
    subst h2
    exact hc
  case isFalse hc => exact Option.noConfusion h

theorem codec_pop_checks_interval_witness :
    (enc_statfun unifRow (0 : Int)).1 ≤ vrans_peek (2 ^ 31, []) 4 ∧
    vrans_peek (2 ^ 31, []) 4
      < (enc_statfun unifRow (0 : Int)).1 + (enc_statfun unifRow (0 : Int)).2 :=
  codec_pop_checks_interval unifRow 17 4 (2 ^ 31, []) (2 ^ 27, []) 0 (by decide)

/-- C6 counterexample: a decode against a CDF row differing from the encode
row completes without aborting and silently returns the wrong symbol
(symbol `0` was encoded with row `[0, 3, 65536]`; decoding with
`[0, 1, 65536]` passes every check and returns `1`). -/
theorem corrupted_row_silent_decode :
    (ans_index_encoder ⟨[1], [0]⟩ ⟨[1], [0]⟩ [[0, 3, 65536]] [3] [0] 16).bind
      (fun ec => ans_index_decoder ec.1 ⟨[1], [0]⟩ [[0, 1, 65536]] [3] [0] 16 ec.2)
      = some [1] ∧
    ([[0, 1, 65536]] : List (List Nat)) ≠ [[0, 3, 65536]] ∧ ([1] : List Int) ≠ [0] :=
  ⟨by decide, by decide, by decide⟩

/-- C7: constructing a codec warns (non-fatally) exactly when the total
mass `2^precision` reaches `2^24`: precision 24 triggers the warning,
precision 23 does not. -/
theorem precision_warning_threshold :
    (∀ p : Nat, base_codec_warns p = true ↔ 2 ^ 24 ≤ 2 ^ p) ∧
    base_codec_warns 24 = true ∧ base_codec_warns 23 = false := by
  refine ⟨?_, by decide, by decide⟩
  intro p
  rw [base_codec_warns]
  simp only [decide_eq_true_eq]
  exact (Nat.pow_le_pow_iff_right (by norm_num)).symm

theorem precision_warning_threshold_witness :
    base_codec_warns 25 = true ↔ 2 ^ 24 ≤ 2 ^ 25 :=
  precision_warning_threshold.1 25

/-- C8 amended: the scalar encoder's returned coding shape is
`symbols.shape[1:]` — the original shape with its leading axis removed —
not the full original shape. -/
theorem coding_shape_amended (symbols indices : Tensor) (cdf : List (List Nat))
    (cdf_length : List Nat) (cdf_offset : List Int) (precision : Nat)
    (enc cs : List Nat)
    (h : ans_index_encoder symbols indices cdf cdf_length cdf_offset precision
      = some (enc, cs)) :
    cs = symbols.shape.drop 1 := by
  simp only [ans_index_encoder] at h
  split at h
  · split at h
    · injection h with h'
      rw [Prod.mk.injEq] at h'
      exact h'.2.symm
    · exact Option.noConfusion h
  · exact Option.noConfusion h

theorem coding_shape_witness : ([] : List Nat) = (Tensor.mk [1] [5]).shape.drop 1 :=
  coding_shape_amended ⟨[1], [5]⟩ ⟨[1], [0]⟩ [unifRow] [17] [0] 4
    [34359738373] [] (by decide)

/-- C8 counterexample: for a symbol tensor of shape `[2, 3]` the encoder
returns coding shape `[3]`, not the original shape `[2, 3]`. -/
theorem coding_shape_counterexample :
    (ans_index_encoder ⟨[2, 3], [1, 2, 3, 4, 5, 6]⟩ ⟨[2, 3], [0, 0, 0, 0, 0, 0]⟩
        [unifRow] [17] [0] 4).map Prod.snd = some [3] ∧
    ([3] : List Nat) ≠ [2, 3] :=
  ⟨by decide, by decide⟩

theorem ans_dec_go_term_ok (C : List (List Nat)) (L : List Nat) (O : List Int) (p : Nat) :
    ∀ (idxs : List Int) (m : Message) (r : Message × List Int),
      ans_dec_go C L O p idxs m = some r →
      ∀ ix ∈ idxs, dec_statfun_ok (C.getD ix.toNat []) (L.getD ix.toNat 0) = true := by
  intro idxs
  induction idxs with
  | nil =>
    intro m r _ ix hix
    cases hix
  | cons a t ih =>
    intro m r h ix hix
    simp only [ans_dec_go] at h
    split at h
    next m' s hstep =>
      have hok : dec_statfun_ok (C.getD a.toNat []) (L.getD a.toNat 0) = true := by
        simp only [ans_dec_step] at hstep
        split at hstep
        · split at hstep
          · split at hstep
            · assumption
            · exact Option.noConfusion hstep
          · exact Option.noConfusion hstep
        · exact Option.noConfusion hstep
      cases hix with
      | head => exact hok
      | tail _ hmem =>
        split at h
        next m2 ss hrest => exact ih m' (m2, ss) hrest ix hmem
        next hrest => exact Option.noConfusion h
    next hstep => exact Option.noConfusion h

/-- C9 amended: constructing the scalar decode lookup aborts unless the
row's last valid entry is `2^16` or `2^4`, so every scalar decode that
completes used only rows whose total mass is one of those two values; the
vectorized lookup performs no such check. -/
theorem scalar_term_assert (encoded : List Nat) (indices : Tensor) (cdf : List (List Nat))
    (cdf_length : List Nat) (cdf_offset : List Int) (precision : Nat)
    (coding_shape : List Nat) (out : List Int)
    (h : ans_index_decoder encoded indices cdf cdf_length cdf_offset precision coding_shape
      = some out) :
    ∀ ix ∈ indices.data,
      dec_term (cdf.getD (wrap32 ix).toNat []) (cdf_length.getD (wrap32 ix).toNat 0)
          = OVERFLOW_CODE ∨
      dec_term (cdf.getD (wrap32 ix).toNat []) (cdf_length.getD (wrap32 ix).toNat 0)
          = 2 ^ OVERFLOW_WIDTH := by
  intro ix hix
  simp only [ans_index_decoder] at h
  rw [if_pos overflow_ok] at h
  cases hgo : ans_dec_go cdf cdf_length cdf_offset precision (indices.data.map wrap32)
      (vrans_unflatten_scalar encoded) with
  | none =>
    rw [hgo] at h
    exact Option.noConfusion h
  | some r =>
    have hok := ans_dec_go_term_ok cdf cdf_length cdf_offset precision _ _ r hgo
      (wrap32 ix) (List.mem_map_of_mem _ hix)
    rw [dec_statfun_ok] at hok
    simp only [Bool.or_eq_true, decide_eq_true_eq] at hok
    exact hok

theorem scalar_term_assert_witness :
    dec_term ([unifRow].getD (wrap32 0).toNat []) ([17].getD (wrap32 0).toNat 0)
        = OVERFLOW_CODE ∨
    dec_term ([unifRow].getD (wrap32 0).toNat []) ([17].getD (wrap32 0).toNat 0)
        = 2 ^ OVERFLOW_WIDTH :=
  scalar_term_assert [2 ^ 31] ⟨[1], [0]⟩ [unifRow] [17] [0] 4 [] [0]
    (by decide) 0 (by decide)

/-- C9 counterexample: a vectorized decode completes successfully using
rows whose total mass is 256 — neither `2^16` nor `2^4` — because the
vectorized lookup constructor never checks the terminal value. -/
theorem vec_decode_no_term_check :
    vec_ans_index_decoder [2 ^ 31, 0] [[0], [0]] [[0, 128, 256]] [3] [0] 8 [1]
      = some [[0], [0]] ∧
    dec_term [0, 128, 256] 3 ≠ OVERFLOW_CODE ∧
    dec_term [0, 128, 256] 3 ≠ 2 ^ OVERFLOW_WIDTH :=
  ⟨by decide, by decide, by decide⟩

theorem ans_dec_go_length (C : List (List Nat)) (L : List Nat) (O : List Int) (p : Nat) :
    ∀ (idxs : List Int) (m m' : Message) (out : List Int),
      ans_dec_go C L O p idxs m = some (m', out) → out.length = idxs.length := by
  intro idxs
  induction idxs with
  | nil =>
    intro m m' out h
    simp only [ans_dec_go] at h
    injection h with h'
    rw [Prod.mk.injEq] at h'
    rw [← h'.2]
  | cons a t ih =>
    intro m m' out h
    simp only [ans_dec_go] at h
    split at h
    next m1 s hstep =>
      split at h
      next m2 ss hrest =>
        injection h with h'
        rw [Prod.mk.injEq] at h'
        rw [← h'.2, List.length_cons, ih m1 m2 ss hrest, List.length_cons]
      next hrest => exact Option.noConfusion h
    next hstep => exact Option.noConfusion h

/-- C10: a successful scalar decode returns a flat sequence with exactly
one entry per index position, and the result never depends on the
`coding_shape` argument (it is never used to reshape the output). -/
theorem decoder_flat_output :
    (∀ (encoded : List Nat) (indices : Tensor) (cdf : List (List Nat))
        (cdf_length : List Nat) (cdf_offset : List Int) (precision : Nat)
        (cs : List Nat) (out : List Int),
      ans_index_decoder encoded indices cdf cdf_length cdf_offset precision cs = some out →
      out.length = indices.data.length) ∧
    (∀ (encoded : List Nat) (indices : Tensor) (cdf : List (List Nat))
        (cdf_length : List Nat) (cdf_offset : List Int) (precision : Nat)
        (cs cs' : List Nat),
      ans_index_decoder encoded indices cdf cdf_length cdf_offset precision cs
        = ans_index_decoder encoded indices cdf cdf_length cdf_offset precision cs') := by
  constructor
  · intro e I C L O p cs out h
    simp only [ans_index_decoder] at h
    rw [if_pos overflow_ok] at h
    cases hgo : ans_dec_go C L O p (I.data.map wrap32) (vrans_unflatten_scalar e) with
    | none =>
      rw [hgo] at h
      exact Option.noConfusion h
    | some r =>
      obtain ⟨m', out'⟩ := r
      rw [hgo] at h
      injection h with h'
      have hl := ans_dec_go_length C L O p (I.data.map wrap32) _ m' out' hgo
      rw [List.length_map] at hl
      rw [← h', hl]
  · intro _ _ _ _ _ _ _ _
    rfl

theorem decoder_flat_output_witness :
    ([0] : List Int).length = (Tensor.mk [1] [0]).data.length :=
  decoder_flat_output.1 [2 ^ 31] ⟨[1], [0]⟩ [unifRow] [17] [0] 4 [7] [0] (by decide)

end EntropyCoding
